import Mathlib

/-!
Shallow embedding of the retrieval-augmented query pipeline in
`src/app/api/prof-query/route.ts`.

Modelling conventions:
* JavaScript strings appear in two guises.  For the unicode-level sanitizers
  (`stripLoneSurrogates`, `safeTruncateByCodepoints`, `makePreview`) a JS
  string is a list of UTF-16 code units (`List Nat`, each unit `< 2^16`),
  because JS regexes without the `u` flag and `String.length` work on code
  units, and a JS string may contain lone surrogates that a Lean `String`
  cannot represent.  Everywhere else (ids, metadata fields, intents, keys)
  we use Lean `String`.
* A missing / `undefined` string-valued field and the empty string are
  modelled alike as `""`: every access in the source goes through JS
  truthiness (`x || y`, `if (x)`), under which `undefined` and `""` behave
  identically.
* `m.score` may be absent (`m.score ?? 0`), so it is `Option ℚ`; JS float
  arithmetic is modelled over `ℚ`.
* The metadata field called `section` in the source is named `sectionName`
  here because `section` is a Lean keyword.
* External calls (chat rewrite, embedding, vector query, synthesis) are
  oracle inputs; the `POST` handler also returns the list of external calls
  it issued, in order, so that "no external call is made" is expressible.
-/

namespace ProfQuery

/-- JS `a || b` on strings: `a` if truthy (non-empty), else `b`. -/
def jsOr (a b : String) : String := if a = "" then b else a

/-- Code units (or code points) matched by the JS `\s` class and removed by
`String.prototype.trim` (ECMA-262 WhiteSpace ∪ LineTerminator). -/
def isJsSpaceCU (u : Nat) : Bool :=
  u = 9 || u = 10 || u = 11 || u = 12 || u = 13 || u = 32 || u = 160 ||
  u = 0x1680 || (0x2000 ≤ u && u ≤ 0x200A) || u = 0x2028 || u = 0x2029 ||
  u = 0x202F || u = 0x205F || u = 0x3000 || u = 0xFEFF

def isJsSpaceChar (c : Char) : Bool := isJsSpaceCU c.toNat

/-- JS `String.prototype.trim` on a Lean `String`. -/
def jsTrim (s : String) : String :=
  ⟨((s.data.dropWhile isJsSpaceChar).reverse.dropWhile isJsSpaceChar).reverse⟩

/-- `String.prototype.toLowerCase`, character by character (faithful for the
ASCII letters the intent patterns and type tags consist of). -/
def jsToLower (s : String) : String := ⟨s.data.map Char.toLower⟩

/-- Substring test on char lists (the semantics of testing a regex that is a
plain alternation of literals, one literal at a time). -/
def isSubstr (pat : List Char) : List Char → Bool
  | [] => pat.isEmpty
  | c :: rest => pat.isPrefixOf (c :: rest) || isSubstr pat rest

/-- `pats.some (p => s.match(p))` for literal patterns. -/
def matchesAny (s : String) (pats : List String) : Bool :=
  pats.any (fun p => isSubstr p.data s.data)

def housingPats : List String :=
  ["dorm", "rent", "room", "apartment", "housing", "wohnheim"]

def studyPats : List String :=
  ["study", "library", "quiet", "wifi", "open", "cafe", "outlet", "socket"]

/-- `inferIntent` (route.ts lines 78–83): lower-case, test the housing
pattern, then the study pattern, else `general`. -/
def inferIntent (q : String) : String :=
  let s := jsToLower q
  if matchesAny s housingPats then "dorm"
  else if matchesAny s studyPats then "study_place"
  else "general"

/-- Knowledge-base candidate metadata (route.ts metadata schema).
`sectionName` models the `section` field (Lean keyword). -/
structure Metadata where
  entity_type : String
  kind : String
  entity_id : String
  name : String
  sectionName : String
  text : String
  text_preview : String
  chunk_block : String
  chunkBlock : String
deriving DecidableEq

/-- A candidate returned by the vector index. -/
structure Candidate where
  id : String
  score : Option ℚ
  metadata : Metadata
deriving DecidableEq

/-- The lower-cased candidate type used by `scoreBoost`
(`String(md.entity_type || md.kind || "").toLowerCase()`). -/
def candType (m : Candidate) : String :=
  jsToLower (jsOr (jsOr m.metadata.entity_type m.metadata.kind) "")

/-- `scoreBoost` (route.ts lines 85–92). -/
def scoreBoost (m : Candidate) (intent : String) : ℚ :=
  if intent = "dorm" ∧ candType m = "dorm" then 8/100
  else if intent = "study_place" ∧ candType m = "study_place" then 8/100
  else if intent = "general" ∧ (candType m = "text" ∨ candType m = "text_chunk") then 3/100
  else 0

/-- `Number(m.score ?? 0) + scoreBoost(m, intent)`: the `_boostedScore`
computed in the ranking map of `POST` (route.ts lines 232–236). -/
def rankedBoostedScore (m : Candidate) (intent : String) : ℚ :=
  (m.score.getD 0) + scoreBoost m intent

/-- `dedupeKey` (route.ts lines 94–100). -/
def dedupeKey (m : Candidate) : String :=
  let md := m.metadata
  if md.entity_type ≠ "" ∧ md.entity_id ≠ "" then md.entity_type ++ ":" ++ md.entity_id
  else if md.name ≠ "" then "name:" ++ md.name
  else if md.sectionName ≠ "" then "section:" ++ md.sectionName
  else "id:" ++ m.id

/-! ## Unicode-level sanitizers (JS strings as UTF-16 code-unit lists) -/

def isSurrogateCU (u : Nat) : Bool := 0xD800 ≤ u && u ≤ 0xDFFF

def isHighSurrogate (u : Nat) : Bool := 0xD800 ≤ u && u ≤ 0xDBFF

def isLowSurrogate (u : Nat) : Bool := 0xDC00 ≤ u && u ≤ 0xDFFF

/-- `stripLoneSurrogates` (route.ts lines 46–49):
`String(s || "").replace(/[\uD800-\uDFFF]/g, "")`.  Without the `u` flag the
character class matches individual UTF-16 code units, so this removes every
code unit in the surrogate range, paired or not. -/
def stripLoneSurrogates (s : List Nat) : List Nat :=
  s.filter (fun u => !isSurrogateCU u)

/-- Code-point grouping of a UTF-16 code-unit sequence: the semantics of JS
string iteration (`Array.from`), which joins a high surrogate immediately
followed by a low surrogate into one element. -/
def codePoints : List Nat → List (List Nat)
  | [] => []
  | [u] => [[u]]
  | u :: v :: rest =>
    if isHighSurrogate u && isLowSurrogate v then [u, v] :: codePoints rest
    else [u] :: codePoints (v :: rest)

/-- `safeTruncateByCodepoints` (route.ts lines 51–53):
`Array.from(String(s || "")).slice(0, maxLen).join("")`. -/
def safeTruncateByCodepoints (s : List Nat) (maxLen : Nat) : List Nat :=
  ((codePoints s).take maxLen).flatten

/-- `s.replace(/\s+/g, " ")`: each maximal run of `\s` code units becomes a
single space. -/
def collapseWsGo : List Nat → Bool → List Nat
  | [], _ => []
  | u :: rest, inRun =>
    if isJsSpaceCU u then
      if inRun then collapseWsGo rest true else 32 :: collapseWsGo rest true
    else u :: collapseWsGo rest false

def collapseWs (s : List Nat) : List Nat := collapseWsGo s false

/-- `String.prototype.trim` at the code-unit level. -/
def trimUnits (s : List Nat) : List Nat :=
  ((s.dropWhile isJsSpaceCU).reverse.dropWhile isJsSpaceCU).reverse

/-- `makePreview` (route.ts lines 55–57):
`stripLoneSurrogates(safeTruncateByCodepoints((s || "").replace(/\s+/g, " ").trim(), maxLen))`. -/
def makePreview (s : List Nat) (maxLen : Nat) : List Nat :=
  stripLoneSurrogates (safeTruncateByCodepoints (trimUnits (collapseWs s)) maxLen)

/-- UTF-16 encoding of a Lean string (Lean chars are scalar values, so the
encoding is total and produces only matched pairs). -/
def utf16Encode (s : String) : List Nat :=
  s.data.flatMap (fun c =>
    if c.toNat < 0x10000 then [c.toNat]
    else [0xD800 + (c.toNat - 0x10000) / 0x400, 0xDC00 + (c.toNat - 0x10000) % 0x400])

/-! ## Ranking, dedupe and client projection -/

/-- Whether a candidate has usable text:
`String(m?.metadata?.text || "").trim()` is non-empty (route.ts line 248). -/
def hasText (m : Candidate) : Bool := jsTrim m.metadata.text ≠ ""

/-- A candidate together with its `_boostedScore` field, as produced by the
spread in the ranking map of `POST` (route.ts lines 232–236). -/
structure Ranked where
  cand : Candidate
  bScore : ℚ
deriving DecidableEq

/-- The ranking map: `rawMatches.map(m => ({...m, _boostedScore: ...}))`. -/
def boostedOf (raw : List Candidate) (intent : String) : List Ranked :=
  raw.map (fun m => ⟨m, rankedBoostedScore m intent⟩)

/-- Stable insertion of `x` into a descending list: `x` is placed before the
first element with a strictly smaller boosted score, after all elements with
a greater-or-equal one (so earlier elements win ties). -/
def insertDesc (x : Ranked) : List Ranked → List Ranked
  | [] => [x]
  | y :: ys => if y.bScore ≤ x.bScore then x :: y :: ys else y :: insertDesc x ys

/-- Stable descending sort, modelling
`.sort((a, b) => Number(b._boostedScore ?? 0) - Number(a._boostedScore ?? 0))`
(route.ts line 237; ECMA-262 requires `Array.prototype.sort` to be stable,
and a stable sort for a consistent comparator is unique, so any faithful
model yields this list). -/
def sortDesc : List Ranked → List Ranked
  | [] => []
  | x :: xs => insertDesc x (sortDesc xs)

/-- The boosted, stably sorted candidate list of `POST` (lines 232–237). -/
def sortBoosted (raw : List Candidate) (intent : String) : List Ranked :=
  sortDesc (boostedOf raw intent)

/-- The selection loop of `POST` (route.ts lines 239–253): `fuel` is the
remaining capacity (`8 - picked.length`), `seen` the set of dedupe keys
already accepted. -/
def pickLoop : List Ranked → Nat → List String → List Ranked
  | [], _, _ => []
  | _ :: _, 0, _ => []
  | m :: rest, fuel + 1, seen =>
    if dedupeKey m.cand ∈ seen then pickLoop rest (fuel + 1) seen
    else if !hasText m.cand then pickLoop rest (fuel + 1) seen
    else m :: pickLoop rest fuel (dedupeKey m.cand :: seen)

/-- The boost/sort/pick pipeline of `POST` (lines 232–253). -/
def rankAndDedupe (raw : List Candidate) (intent : String) : List Ranked :=
  pickLoop (sortBoosted raw intent) 8 []

/-- The selection walk without the cap: used to count eligible candidates. -/
def selectAll : List Ranked → List String → List Ranked
  | [], _ => []
  | m :: rest, seen =>
    if dedupeKey m.cand ∈ seen then selectAll rest seen
    else if !hasText m.cand then selectAll rest seen
    else m :: selectAll rest (dedupeKey m.cand :: seen)

/-- Number of eligible candidates in a retrieved list: distinct dedupe keys
among candidates with non-empty trimmed text. -/
def eligibleCount (raw : List Candidate) : Nat :=
  (((raw.filter hasText).map dedupeKey).toFinset).card

/-- The UI-facing record (route.ts lines 38–44); `snippet` is kept at the
code-unit level because `makePreview` operates there. -/
structure MatchForClient where
  score : ℚ
  boostedScore : ℚ
  type : String
  title : String
  snippet : List Nat
deriving DecidableEq

/-- The body of the `matchesToClient` map (route.ts lines 102–118). -/
def clientProj (m : Candidate) (intent : String) : MatchForClient :=
  let md := m.metadata
  let type := jsOr (jsOr md.entity_type md.kind) "unknown"
  let title := jsOr (jsOr (jsOr md.name md.sectionName) (jsOr md.chunk_block md.chunkBlock)) "(result)"
  let text := jsOr md.text ""
  let baseScore := m.score.getD 0
  { score := baseScore
    boostedScore := baseScore + scoreBoost m intent
    type := type
    title := title
    snippet := if md.text_preview ≠ "" then makePreview (utf16Encode md.text_preview) 220
               else makePreview (utf16Encode text) 220 }

/-- `matchesToClient` (route.ts lines 102–118). -/
def matchesToClient (ms : List Candidate) (intent : String) : List MatchForClient :=
  ms.map (fun m => clientProj m intent)

/-! ## The HTTP handler -/

/-- A conversation turn; `content` is `Option` because the handler checks
`typeof last.content !== "string"`. -/
structure ChatMsg where
  role : String
  content : Option String
deriving DecidableEq

/-- `rewriteToStandalone` (route.ts lines 139–167).  `respContent` is the
content returned by the external chat call
(`resp.choices[0]?.message?.content`, `none` when missing); the function
returns `trim(respContent) || messages[messages.length - 1]?.content || ""`. -/
def rewriteToStandalone (messages : List ChatMsg) (respContent : Option String) : String :=
  let rewritten := match respContent with
    | none => ""
    | some c => jsTrim c
  let lastContent := (messages.getLast?.bind (fun m => m.content)).getD ""
  jsOr (jsOr rewritten lastContent) ""

/-- The result of `askLLM` (route.ts lines 169–193):
`completion.choices[0]?.message?.content?.trim() || ""`. -/
def askLLMResult (respContent : Option String) : String :=
  jsOr (match respContent with | none => "" | some c => jsTrim c) ""

/-- Responses produced by the handler.  The two degenerate 200 responses
(route.ts lines 223–229 and 255–261) carry no `intent` field, hence
`intent : Option String`. -/
inductive ApiResponse where
  | badRequest (error : String)
  | ok (answer : String) (matchList : List MatchForClient) (rewrittenQuestion : String)
       (intent : Option String)
deriving DecidableEq

/-- HTTP status of a response (`NextResponse.json(..., { status: 400 })` vs
the default 200). -/
def statusOf : ApiResponse → Nat
  | .badRequest _ => 400
  | .ok _ _ _ _ => 200

/-- The external calls the handler can issue, in program order. -/
inductive ExtCall where
  | rewriteCall
  | embedCall
  | retrieveCall
  | synthesizeCall
deriving DecidableEq

/-- Oracle results of the external services for one request. -/
structure Oracles where
  rewriteContent : Option String
  retrieved : Option (List Candidate)
  answerContent : Option String

/-- Fixed answer of the "no candidates retrieved" branch (route.ts line 225). -/
def noMatchAnswer : String :=
  "I couldn\u0027t find relevant information for that in the current knowledge base."

/-- Fixed answer of the "no usable candidates" branch (route.ts line 257). -/
def noUsableAnswer : String :=
  "I found related entries, but none had usable text to answer with."

/-- The `POST` handler (route.ts lines 195–273), with external services as
oracles.  `body` is the parsed `body?.messages` (`none` models missing or
not-an-array).  Returns the response together with the list of external
calls issued before returning. -/
def POST (body : Option (List ChatMsg)) (o : Oracles) : ApiResponse × List ExtCall :=
  match body with
  | none => (.badRequest "Missing or invalid \"messages\" array in body", [])
  | some messages =>
    if messages.isEmpty then
      (.badRequest "Missing or invalid \"messages\" array in body", [])
    else
      match messages.getLast? with
      | none =>
        (.badRequest "The last message must be a user message with non-empty \"content\".", [])
      | some last =>
        if last.role ≠ "user" ∨ last.content = none ∨ jsTrim (last.content.getD "") = "" then
          (.badRequest "The last message must be a user message with non-empty \"content\".", [])
        else
          let rewrittenQuestion := rewriteToStandalone messages o.rewriteContent
          let intent := inferIntent rewrittenQuestion
          let rawMatches := o.retrieved.getD []
          let calls := [ExtCall.rewriteCall, ExtCall.embedCall, ExtCall.retrieveCall]
          if rawMatches.isEmpty then
            (.ok noMatchAnswer [] rewrittenQuestion none, calls)
          else
            let picked := rankAndDedupe rawMatches intent
            if picked.isEmpty then
              (.ok noUsableAnswer [] rewrittenQuestion none, calls)
            else
              let answer := askLLMResult o.answerContent
              (.ok answer (matchesToClient (picked.map Ranked.cand) intent) rewrittenQuestion
                 (some intent),
               calls ++ [ExtCall.synthesizeCall])

/-- The validation predicate of the handler on a present messages array:
non-empty, and the last turn is a user turn with non-empty trimmed string
content. -/
def validMessages (messages : List ChatMsg) : Bool :=
  !messages.isEmpty &&
    match messages.getLast? with
    | none => false
    | some last =>
      last.role = "user" && last.content ≠ none && jsTrim (last.content.getD "") ≠ ""

/-! ## Helper measures and concrete sample data -/

/-- The dedupe keys of the usable (non-empty-text) candidates of a ranked
list, as a finite set. -/
def keyFinR (l : List Ranked) : Finset String :=
  ((l.filter (fun r => hasText r.cand)).map (fun r => dedupeKey r.cand)).toFinset

/-- A candidate with only `name`, `text` and `score` set. -/
def mkCand (nm tx : String) (sc : ℚ) : Candidate :=
  ⟨"", some sc, ⟨"", "", "", nm, "", tx, "", "", ""⟩⟩

/-- Name-keyed candidate with empty text and the higher score. -/
def cEmptyText : Candidate := mkCand "X" "" 1

/-- Candidate sharing `cEmptyText`'s dedupe key, with text and lower score. -/
def cWithText : Candidate := mkCand "X" "hi" 0

/-- A candidate with a missing score. -/
def cNoScore : Candidate := ⟨"idA", none, ⟨"", "", "", "A", "", "tA", "", "", ""⟩⟩

/-- Nine candidates with pairwise distinct keys and usable text. -/
def rawNine : List Candidate :=
  [mkCand "n1" "t" 9, mkCand "n2" "t" 8, mkCand "n3" "t" 7,
   mkCand "n4" "t" 6, mkCand "n5" "t" 5, mkCand "n6" "t" 4,
   mkCand "n7" "t" 3, mkCand "n8" "t" 2, mkCand "n9" "t" 1]

/-- A single-turn conversation whose last turn is a valid user turn. -/
def msgsHello : List ChatMsg := [⟨"user", some "hello"⟩]

/-- Oracles where every external service returns nothing. -/
def emptyOracles : Oracles := ⟨none, none, none⟩

/-- Oracles whose retrieval returns zero candidates. -/
def oNoMatches : Oracles := ⟨none, some [], none⟩

/-- Oracles whose retrieval returns one candidate without usable text. -/
def oOnlyEmptyText : Oracles := ⟨none, some [cEmptyText], none⟩

/-! ## Theorems -/

/-- **C3**: `boostedScore = score + boost` with boost `+0.08` for matching
`dorm`, `+0.08` for matching `study_place`, `+0.03` for `general` on generic
text/guide chunks, `0` otherwise; for intent `dorm` a non-`dorm` candidate
keeps its raw score. -/
theorem C3_scoreBoost_correct (m : Candidate) (intent : String) :
    (candType m = "dorm" → scoreBoost m "dorm" = 8/100) ∧
    (candType m = "study_place" → scoreBoost m "study_place" = 8/100) ∧
    ((candType m = "text" ∨ candType m = "text_chunk") → scoreBoost m "general" = 3/100) ∧
    (¬(intent = "dorm" ∧ candType m = "dorm") →
      ¬(intent = "study_place" ∧ candType m = "study_place") →
      ¬(intent = "general" ∧ (candType m = "text" ∨ candType m = "text_chunk")) →
      scoreBoost m intent = 0) ∧
    rankedBoostedScore m intent = m.score.getD 0 + scoreBoost m intent ∧
    (candType m ≠ "dorm" → rankedBoostedScore m "dorm" = m.score.getD 0) := by
  refine ⟨fun h => ?_, fun h => ?_, fun h => ?_, fun h1 h2 h3 => ?_, rfl, fun h => ?_⟩
  · simp [scoreBoost, h]
  · simp [scoreBoost, h]
  · simp [scoreBoost, h]
  · simp only [scoreBoost, if_neg h1, if_neg h2, if_neg h3]
  · simp [rankedBoostedScore, scoreBoost, h]

/-- Witness for C3 at a concrete non-`dorm` candidate. -/
theorem C3_scoreBoost_correct_witness :
    rankedBoostedScore (mkCand "X" "t" 1) "dorm" = (mkCand "X" "t" 1).score.getD 0 :=
  (C3_scoreBoost_correct (mkCand "X" "t" 1) "dorm").2.2.2.2.2 (by decide)

/-- **C4**: `inferIntent` is a total function of the text; after
lower-casing, a housing-pattern match yields `dorm` (taking priority even if
the study pattern also matches), otherwise a study-pattern match yields
`study_place`, otherwise `general`. -/
theorem C4_inferIntent_priority (q : String) :
    (matchesAny (jsToLower q) housingPats = true → inferIntent q = "dorm") ∧
    (matchesAny (jsToLower q) housingPats = false →
      matchesAny (jsToLower q) studyPats = true → inferIntent q = "study_place") ∧
    (matchesAny (jsToLower q) housingPats = false →
      matchesAny (jsToLower q) studyPats = false → inferIntent q = "general") := by
  refine ⟨fun h => ?_, fun h1 h2 => ?_, fun h1 h2 => ?_⟩ <;>
    simp [inferIntent, *]

/-- Witness for C4: a text matching both pattern groups resolves to `dorm`. -/
theorem C4_inferIntent_priority_witness :
    matchesAny (jsToLower "Quiet ROOM in a dorm") housingPats = true ∧
    matchesAny (jsToLower "Quiet ROOM in a dorm") studyPats = true ∧
    inferIntent "Quiet ROOM in a dorm" = "dorm" :=
  ⟨by decide, by decide, (C4_inferIntent_priority "Quiet ROOM in a dorm").1 (by decide)⟩

/-- **C5** (code bug evidence): the code removes every UTF-16 code unit in
the surrogate range, so a validly matched surrogate pair — here U+1F600 as
`0xD83D 0xDE00` — is *not* preserved: the claim says it must survive, but
`stripLoneSurrogates` deletes both halves. -/
theorem C5_stripLoneSurrogates_removes_valid_pair :
    isHighSurrogate 0xD83D = true ∧ isLowSurrogate 0xDE00 = true ∧
    stripLoneSurrogates [0xD83D, 0xDE00] = [] := by decide

/-- **C9**: when the external rewrite yields an empty or missing result,
`rewriteToStandalone` returns the raw content of the last turn, which is
non-empty whenever that content is non-empty. -/
theorem C9_rewrite_fallback (messages : List ChatMsg) (last : ChatMsg) (c : String)
    (respContent : Option String)
    (hlast : messages.getLast? = some last) (hc : last.content = some c) (hne : c ≠ "")
    (hresp : respContent = none ∨ ∃ r, respContent = some r ∧ jsTrim r = "") :
    rewriteToStandalone messages respContent = c ∧
    rewriteToStandalone messages respContent ≠ "" := by
  have hmain : rewriteToStandalone messages respContent = c := by
    rcases hresp with h | ⟨r, hr, htrim⟩
    · subst h
      simp [rewriteToStandalone, jsOr, hlast, hc, hne]
    · subst hr
      simp [rewriteToStandalone, jsOr, hlast, hc, hne, htrim]
  exact ⟨hmain, by simp [hmain, hne]⟩

/-- Witness for C9 at a one-turn conversation and a whitespace-only rewrite
result. -/
theorem C9_rewrite_fallback_witness :
    rewriteToStandalone [ChatMsg.mk "user" (some "hi")] (some " ") = "hi" ∧
    rewriteToStandalone [ChatMsg.mk "user" (some "hi")] (some " ") ≠ "" :=
  C9_rewrite_fallback [ChatMsg.mk "user" (some "hi")] (ChatMsg.mk "user" (some "hi")) "hi"
    (some " ") (by decide) rfl (by decide) (Or.inr ⟨" ", rfl, by decide⟩)

/-- **C10**: the `boostedScore` projected to the client equals the
`_boostedScore` the candidate was ranked by, and both treat a missing score
as `0`. -/
theorem C10_client_score_matches_ranking (raw : List Candidate) (intent : String) :
    (matchesToClient raw intent).map MatchForClient.boostedScore
      = (boostedOf raw intent).map Ranked.bScore ∧
    (∀ m : Candidate, m.score = none →
      (clientProj m intent).boostedScore = scoreBoost m intent ∧
      rankedBoostedScore m intent = scoreBoost m intent) := by
  constructor
  · simp [matchesToClient, boostedOf, clientProj, rankedBoostedScore, List.map_map,
      Function.comp]
  · intro m h
    constructor
    · simp [clientProj, h]
    · simp [rankedBoostedScore, h]

/-- Witness for C10 at a concrete candidate with a missing score. -/
theorem C10_client_score_matches_ranking_witness :
    (clientProj cNoScore "general").boostedScore = scoreBoost cNoScore "general" :=
  ((C10_client_score_matches_ranking [cNoScore] "general").2 cNoScore rfl).1

/-! ### Lemmas about the unicode sanitizers -/

theorem isSurrogateCU_of_high {u : Nat} (h : isHighSurrogate u = true) :
    isSurrogateCU u = true := by
  simp only [isHighSurrogate, Bool.and_eq_true, decide_eq_true_eq] at h
  simp only [isSurrogateCU, Bool.and_eq_true, decide_eq_true_eq]
  omega

theorem isSurrogateCU_of_low {u : Nat} (h : isLowSurrogate u = true) :
    isSurrogateCU u = true := by
  simp only [isLowSurrogate, Bool.and_eq_true, decide_eq_true_eq] at h
  simp only [isSurrogateCU, Bool.and_eq_true, decide_eq_true_eq]
  omega

/-- Every code-point group contributes at most one unit after surrogate
stripping: a matched pair is wholly removed, a single unit survives at most
once. -/
theorem stripLone_group_length_le_one (l : List Nat) :
    ∀ g ∈ codePoints l, (stripLoneSurrogates g).length ≤ 1 := by
  induction l using codePoints.induct with
  | case1 => intro g hg; simp [codePoints] at hg
  | case2 u =>
    intro g hg
    simp only [codePoints, List.mem_singleton] at hg
    subst hg
    exact List.length_filter_le _ _
  | case3 u v rest h ih =>
    intro g hg
    simp only [codePoints, h, if_true, List.mem_cons] at hg
    rcases hg with hg | hg
    · subst hg
      rcases Bool.and_eq_true .. |>.mp h with ⟨hu, hv⟩
      simp [stripLoneSurrogates, isSurrogateCU_of_high hu, isSurrogateCU_of_low hv]
    · exact ih g hg
  | case4 u v rest h ih =>
    intro g hg
    simp only [codePoints, h, if_false, List.mem_cons, Bool.false_eq_true] at hg
    rcases hg with hg | hg
    · subst hg
      exact List.length_filter_le _ _
    · exact ih g hg

theorem stripLone_flatten_length_le (gs : List (List Nat))
    (h : ∀ g ∈ gs, (stripLoneSurrogates g).length ≤ 1) :
    (stripLoneSurrogates gs.flatten).length ≤ gs.length := by
  induction gs with
  | nil => simp [stripLoneSurrogates]
  | cons g gs ih =>
    simp only [List.flatten_cons, stripLoneSurrogates, List.filter_append,
      List.length_append, List.length_cons]
    have h1 := h g (List.mem_cons_self g gs)
    have h2 := ih (fun g' hg' => h g' (List.mem_cons_of_mem g hg'))
    simp only [stripLoneSurrogates] at h1 h2
    omega

/-- On a surrogate-free unit list, every unit is its own code point. -/
theorem codePoints_length_of_noSurr (l : List Nat)
    (h : ∀ u ∈ l, isSurrogateCU u = false) : (codePoints l).length = l.length := by
  induction l using codePoints.induct with
  | case1 => simp [codePoints]
  | case2 u => simp [codePoints]
  | case3 u v rest hc ih =>
    rcases Bool.and_eq_true .. |>.mp hc with ⟨hu, _⟩
    have := h u (List.mem_cons_self u _)
    rw [isSurrogateCU_of_high hu] at this
    cases this
  | case4 u v rest hc ih =>
    simp only [codePoints, hc, if_false, List.length_cons, Bool.false_eq_true]
    have := ih (fun u' hu' => h u' (List.mem_cons_of_mem u hu'))
    simp only [List.length_cons] at *
    omega

/-- **C6**: for every text and bound `N`, `makePreview` yields at most `N`
code points, never contains a surrogate code unit (in particular no unpaired
one), and the empty input yields the empty string. -/
theorem C6_makePreview_bounds (s : List Nat) (N : Nat) :
    (codePoints (makePreview s N)).length ≤ N ∧
    (∀ u ∈ makePreview s N, isSurrogateCU u = false) ∧
    makePreview [] N = [] := by
  have hnos : ∀ u ∈ makePreview s N, isSurrogateCU u = false := by
    intro u hu
    simp only [makePreview, stripLoneSurrogates, List.mem_filter,
      Bool.not_eq_eq_eq_not, Bool.not_true] at hu
    exact hu.2
  refine ⟨?_, hnos, ?_⟩
  · rw [codePoints_length_of_noSurr _ hnos]
    show (stripLoneSurrogates (safeTruncateByCodepoints _ N)).length ≤ N
    unfold safeTruncateByCodepoints
    calc (stripLoneSurrogates ((codePoints (trimUnits (collapseWs s))).take N).flatten).length
        ≤ ((codePoints (trimUnits (collapseWs s))).take N).length := by
          refine stripLone_flatten_length_le _ (fun g hg => ?_)
          exact stripLone_group_length_le_one _ g (List.take_subset N _ hg)
      _ ≤ N := by
          rw [List.length_take]
          exact Nat.min_le_left _ _
  · simp [makePreview, collapseWs, collapseWsGo, trimUnits, safeTruncateByCodepoints,
      codePoints, stripLoneSurrogates]

/-! ### Lemmas about the stable sort -/

theorem mem_insertDesc {x z : Ranked} {l : List Ranked} :
    z ∈ insertDesc x l ↔ z = x ∨ z ∈ l := by
  induction l with
  | nil => simp [insertDesc]
  | cons y ys ih =>
    simp only [insertDesc]
    split
    · simp [List.mem_cons]
    · simp only [List.mem_cons, ih]
      tauto

theorem insertDesc_perm (x : Ranked) (l : List Ranked) : List.Perm (insertDesc x l) (x :: l) := by
  induction l with
  | nil => simp [insertDesc]
  | cons y ys ih =>
    simp only [insertDesc]
    split
    · exact List.Perm.refl _
    · exact (ih.cons y).trans (List.Perm.swap x y ys)

theorem sortDesc_perm (l : List Ranked) : List.Perm (sortDesc l) l := by
  induction l with
  | nil => exact List.Perm.refl _
  | cons x xs ih => exact (insertDesc_perm x (sortDesc xs)).trans (ih.cons x)

theorem pairwise_insertDesc (x : Ranked) (l : List Ranked)
    (h : l.Pairwise (fun a b => b.bScore ≤ a.bScore)) :
    (insertDesc x l).Pairwise (fun a b => b.bScore ≤ a.bScore) := by
  induction l with
  | nil => simp [insertDesc]
  | cons y ys ih =>
    rcases List.pairwise_cons.mp h with ⟨hy, hys⟩
    simp only [insertDesc]
    split
    · rename_i hle
      refine List.pairwise_cons.mpr ⟨?_, h⟩
      intro z hz
      rcases List.mem_cons.mp hz with rfl | hz
      · exact hle
      · exact le_trans (hy z hz) hle
    · rename_i hgt
      push_neg at hgt
      refine List.pairwise_cons.mpr ⟨?_, ih hys⟩
      intro z hz
      rcases mem_insertDesc.mp hz with rfl | hz
      · exact le_of_lt hgt
      · exact hy z hz

theorem sortDesc_pairwise (l : List Ranked) :
    (sortDesc l).Pairwise (fun a b => b.bScore ≤ a.bScore) := by
  induction l with
  | nil => simp [sortDesc]
  | cons x xs ih => exact pairwise_insertDesc x (sortDesc xs) ih

/-- Stability of the sort, expressed per score class: for any value `v`, the
elements of score `v` come out of `insertDesc` in the order they would be
listed with `x` first. -/
theorem insertDesc_filter_score (x : Ranked) (l : List Ranked) (v : ℚ) :
    (insertDesc x l).filter (fun r => r.bScore = v)
      = if x.bScore = v then x :: l.filter (fun r => r.bScore = v)
        else l.filter (fun r => r.bScore = v) := by
  induction l with
  | nil =>
    simp only [insertDesc, List.filter]
    split <;> simp_all
  | cons y ys ih =>
    simp only [insertDesc]
    split
    · rename_i hle
      by_cases hx : x.bScore = v <;> simp [List.filter_cons, hx]
    · rename_i hgt
      push_neg at hgt
      by_cases hx : x.bScore = v
      · have hy : ¬ y.bScore = v := by
          intro hy
          rw [hy, hx] at hgt
          exact lt_irrefl v hgt
        simp [List.filter_cons, hx, hy, ih]
      · by_cases hy : y.bScore = v <;> simp [List.filter_cons, hx, hy, ih]

theorem sortDesc_filter_score (l : List Ranked) (v : ℚ) :
    (sortDesc l).filter (fun r => r.bScore = v) = l.filter (fun r => r.bScore = v) := by
  induction l with
  | nil => rfl
  | cons x xs ih =>
    simp only [sortDesc, insertDesc_filter_score, ih, List.filter_cons]
    split <;> simp_all

/-! ### Lemmas about the selection walk -/

theorem pickLoop_eq_take_selectAll (l : List Ranked) :
    ∀ fuel seen, pickLoop l fuel seen = (selectAll l seen).take fuel := by
  induction l with
  | nil => intro fuel seen; cases fuel <;> rfl
  | cons m rest ih =>
    intro fuel seen
    cases fuel with
    | zero =>
      simp only [pickLoop, selectAll]
      split
      · rfl
      · split
        · rfl
        · rfl
    | succ n =>
      simp only [pickLoop, selectAll]
      split
      · exact ih (n + 1) seen
      · split
        · exact ih (n + 1) seen
        · simp [ih n (dedupeKey m.cand :: seen)]

theorem selectAll_sublist (l : List Ranked) :
    ∀ seen, (selectAll l seen).Sublist l := by
  induction l with
  | nil => intro seen; simp [selectAll]
  | cons m rest ih =>
    intro seen
    simp only [selectAll]
    split
    · exact (ih seen).cons m
    · split
      · exact (ih seen).cons m
      · exact (ih (dedupeKey m.cand :: seen)).cons₂ m

theorem selectAll_length (l : List Ranked) :
    ∀ seen : List String,
      (selectAll l seen).length = ((keyFinR l) \ seen.toFinset).card := by
  induction l with
  | nil => intro seen; simp [selectAll, keyFinR]
  | cons m rest ih =>
    intro seen
    by_cases ht : hasText m.cand
    · have hkeys : keyFinR (m :: rest) = insert (dedupeKey m.cand) (keyFinR rest) := by
        simp [keyFinR, List.filter_cons, ht]
      by_cases hs : dedupeKey m.cand ∈ seen
      · have : selectAll (m :: rest) seen = selectAll rest seen := by
          simp [selectAll, hs]
        rw [this, ih seen, hkeys,
          Finset.insert_sdiff_of_mem _ (List.mem_toFinset.mpr hs)]
      · have hsel : selectAll (m :: rest) seen
            = m :: selectAll rest (dedupeKey m.cand :: seen) := by
          simp [selectAll, hs, ht]
        rw [hsel, List.length_cons, ih (dedupeKey m.cand :: seen), hkeys]
        have hset : insert (dedupeKey m.cand) (keyFinR rest) \ seen.toFinset
            = insert (dedupeKey m.cand)
                (keyFinR rest \ (dedupeKey m.cand :: seen).toFinset) := by
          ext a
          simp only [Finset.mem_sdiff, Finset.mem_insert, List.mem_toFinset,
            List.mem_cons]
          constructor
          · rintro ⟨rfl | ha, hna⟩
            · exact Or.inl rfl
            · by_cases hak : a = dedupeKey m.cand
              · exact Or.inl hak
              · exact Or.inr ⟨ha, fun h => h.elim hak hna⟩
          · rintro (rfl | ⟨ha, hna⟩)
            · exact ⟨Or.inl rfl, hs⟩
            · exact ⟨Or.inr ha, fun h => hna (Or.inr h)⟩
        rw [hset, Finset.card_insert_of_not_mem]
        simp
    · have hsel : selectAll (m :: rest) seen = selectAll rest seen := by
        simp only [selectAll, ht]
        split <;> simp
      have hkeys : keyFinR (m :: rest) = keyFinR rest := by
        simp [keyFinR, List.filter_cons, ht]
      rw [hsel, ih seen, hkeys]

theorem keyFinR_of_perm {l₁ l₂ : List Ranked} (h : List.Perm l₁ l₂) :
    keyFinR l₁ = keyFinR l₂ := by
  ext a
  simp only [keyFinR, List.mem_toFinset, List.mem_map, List.mem_filter]
  constructor <;> rintro ⟨r, ⟨hr, hht⟩, rfl⟩
  · exact ⟨r, ⟨h.mem_iff.mp hr, hht⟩, rfl⟩
  · exact ⟨r, ⟨h.mem_iff.mpr hr, hht⟩, rfl⟩

theorem keyFinR_boostedOf (raw : List Candidate) (intent : String) :
    keyFinR (boostedOf raw intent) = ((raw.filter hasText).map dedupeKey).toFinset := by
  ext a
  simp only [keyFinR, boostedOf, List.mem_toFinset, List.mem_map, List.mem_filter]
  constructor
  · rintro ⟨r, ⟨hr, hht⟩, rfl⟩
    rcases hr with ⟨m, hm, rfl⟩
    exact ⟨m, ⟨hm, hht⟩, rfl⟩
  · rintro ⟨m, ⟨hm, hht⟩, rfl⟩
    exact ⟨⟨m, rankedBoostedScore m intent⟩, ⟨⟨m, hm, rfl⟩, hht⟩, rfl⟩

theorem eligibleCount_eq_keyFinR_sorted (raw : List Candidate) (intent : String) :
    (keyFinR (sortBoosted raw intent)).card = eligibleCount raw := by
  rw [sortBoosted, keyFinR_of_perm (sortDesc_perm (boostedOf raw intent)),
    keyFinR_boostedOf, eligibleCount]

/-- **C1**: with more than 8 eligible candidates (distinct dedupe keys with
non-empty trimmed text), the boost/sort/pick loop returns exactly 8
candidates, in descending order of `_boostedScore`; for every score value
`v`, the selected candidates of score `v` appear in the original retrieval
order (stability). -/
theorem C1_cap_and_stable_order (raw : List Candidate) (intent : String) (v : ℚ)
    (h : 8 < eligibleCount raw) :
    (rankAndDedupe raw intent).length = 8 ∧
    (rankAndDedupe raw intent).Pairwise (fun a b => b.bScore ≤ a.bScore) ∧
    List.Sublist ((rankAndDedupe raw intent).filter (fun r => r.bScore = v))
      ((boostedOf raw intent).filter (fun r => r.bScore = v)) := by
  have hpick : rankAndDedupe raw intent
      = (selectAll (sortBoosted raw intent) []).take 8 :=
    pickLoop_eq_take_selectAll _ 8 []
  have hsub : (rankAndDedupe raw intent).Sublist (sortBoosted raw intent) := by
    rw [hpick]
    exact (List.take_sublist _ _).trans (selectAll_sublist _ [])
  refine ⟨?_, ?_, ?_⟩
  · rw [hpick, List.length_take, selectAll_length, List.toFinset_nil,
      Finset.sdiff_empty, eligibleCount_eq_keyFinR_sorted]
    omega
  · exact (sortDesc_pairwise (boostedOf raw intent)).sublist hsub
  · have hfil := hsub.filter (fun r => decide (r.bScore = v))
    rw [sortBoosted] at hfil
    rw [sortDesc_filter_score] at hfil
    exact hfil

/-- Witness for C1 at nine distinct-key candidates with usable text. -/
theorem C1_cap_and_stable_order_witness :
    8 < eligibleCount rawNine ∧
    ((rankAndDedupe rawNine "general").length = 8 ∧
     (rankAndDedupe rawNine "general").Pairwise (fun a b => b.bScore ≤ a.bScore) ∧
     List.Sublist ((rankAndDedupe rawNine "general").filter (fun r => r.bScore = (9 : ℚ)))
       ((boostedOf rawNine "general").filter (fun r => r.bScore = (9 : ℚ)))) :=
  ⟨by decide, C1_cap_and_stable_order rawNine "general" 9 (by decide)⟩

/-! ### Selection-walk invariants for the dedupe claim -/

/-- Every selected candidate's key was unseen, and the selected candidate is
the first element of the walked list that shares its dedupe key and has
usable text. -/
theorem pickLoop_key_first (l : List Ranked) :
    ∀ fuel seen r, r ∈ pickLoop l fuel seen →
      dedupeKey r.cand ∉ seen ∧
      (l.filter (fun d => dedupeKey d.cand = dedupeKey r.cand && hasText d.cand)).head?
        = some r := by
  induction l with
  | nil => intro fuel seen r hr; simp [pickLoop] at hr
  | cons m rest ih =>
    intro fuel seen r hr
    cases fuel with
    | zero => simp [pickLoop] at hr
    | succ n =>
      by_cases hks : dedupeKey m.cand ∈ seen
      · have hr' : r ∈ pickLoop rest (n + 1) seen := by
          simpa [pickLoop, hks] using hr
        obtain ⟨hns, hhead⟩ := ih (n + 1) seen r hr'
        have hne : (dedupeKey m.cand = dedupeKey r.cand && hasText m.cand) = false := by
          have : dedupeKey m.cand ≠ dedupeKey r.cand := fun he => hns (he ▸ hks)
          simp [this]
        refine ⟨hns, ?_⟩
        rw [List.filter_cons, if_neg (by simp [hne])]
        exact hhead
      · by_cases hht : hasText m.cand
        · have hr2 : r = m ∨ r ∈ pickLoop rest n (dedupeKey m.cand :: seen) := by
            have : pickLoop (m :: rest) (n + 1) seen
                = m :: pickLoop rest n (dedupeKey m.cand :: seen) := by
              simp [pickLoop, hks, hht]
            rw [this] at hr
            exact List.mem_cons.mp hr
          rcases hr2 with rfl | hr3
          · refine ⟨hks, ?_⟩
            rw [List.filter_cons, if_pos (by simp [hht])]
            rfl
          · obtain ⟨hns, hhead⟩ := ih n (dedupeKey m.cand :: seen) r hr3
            have hnm : dedupeKey m.cand ≠ dedupeKey r.cand := by
              intro he
              exact hns (by rw [← he]; exact List.mem_cons_self _ _)
            refine ⟨fun hsn => hns (List.mem_cons_of_mem _ hsn), ?_⟩
            rw [List.filter_cons, if_neg (by simp [hnm])]
            exact hhead
        · have hr' : r ∈ pickLoop rest (n + 1) seen := by
            simpa [pickLoop, hks, hht] using hr
          obtain ⟨hns, hhead⟩ := ih (n + 1) seen r hr'
          refine ⟨hns, ?_⟩
          rw [List.filter_cons, if_neg (by simp [hht])]
          exact hhead

/-- The selected candidates have pairwise distinct dedupe keys. -/
theorem pickLoop_pairwise_keys (l : List Ranked) :
    ∀ fuel seen,
      (pickLoop l fuel seen).Pairwise (fun a b => dedupeKey a.cand ≠ dedupeKey b.cand) := by
  induction l with
  | nil => intro fuel seen; simp [pickLoop]
  | cons m rest ih =>
    intro fuel seen
    cases fuel with
    | zero => simp [pickLoop]
    | succ n =>
      simp only [pickLoop]
      split
      · exact ih (n + 1) seen
      · split
        · exact ih (n + 1) seen
        · refine List.pairwise_cons.mpr ⟨?_, ih n _⟩
          intro r hr he
          have := (pickLoop_key_first rest n (dedupeKey m.cand :: seen) r hr).1
          exact this (by rw [← he]; exact List.mem_cons_self _ _)

/-- **C2** (counterexample to "among candidates sharing a key only the first
in sorted order appears"): `cEmptyText` precedes `cWithText` in sorted order
and shares its dedupe key, yet the selected set contains `cWithText` — the
first-by-rank candidate of the key is skipped for empty text *without*
marking the key as seen, so a later candidate of the same key survives. -/
theorem C2_first_of_key_not_selected :
    dedupeKey cEmptyText = dedupeKey cWithText ∧
    sortBoosted [cEmptyText, cWithText] "general"
      = [⟨cEmptyText, 1⟩, ⟨cWithText, 0⟩] ∧
    rankAndDedupe [cEmptyText, cWithText] "general" = [⟨cWithText, 0⟩] ∧
    (⟨cWithText, 0⟩ : Ranked) ≠ ⟨cEmptyText, 1⟩ := by
  have hb1 : rankedBoostedScore cEmptyText "general" = 1 := by
    simp [rankedBoostedScore, scoreBoost, candType, jsToLower, jsOr, cEmptyText, mkCand]
  have hb2 : rankedBoostedScore cWithText "general" = 0 := by
    simp [rankedBoostedScore, scoreBoost, candType, jsToLower, jsOr, cWithText, mkCand]
  have hsort : sortBoosted [cEmptyText, cWithText] "general"
      = [⟨cEmptyText, 1⟩, ⟨cWithText, 0⟩] := by
    simp [sortBoosted, boostedOf, hb1, hb2, sortDesc, insertDesc]
  have hsel : selectAll [⟨cEmptyText, (1 : ℚ)⟩, ⟨cWithText, 0⟩] [] = [⟨cWithText, 0⟩] := by
    simp [selectAll, hasText, jsTrim, isJsSpaceChar, isJsSpaceCU, dedupeKey,
      cEmptyText, cWithText, mkCand]
  have hrank : rankAndDedupe [cEmptyText, cWithText] "general" = [⟨cWithText, 0⟩] := by
    rw [rankAndDedupe, pickLoop_eq_take_selectAll, hsort, hsel]
    decide
  exact ⟨by decide, hsort, hrank, by decide⟩

/-- **C2** (amended): the walk skips a candidate exactly when its key was
seen or its text trims to empty; the dedupe key follows the fallback
priority `(entity_type, entity_id)` > `name` > `section` > raw id; selected
candidates have pairwise distinct keys and non-empty trimmed text; and the
selected representative of a key is the first candidate in sorted order
with that key **and non-empty text** (not necessarily the first with that
key). -/
theorem C2_dedupe_selection (raw : List Candidate) (intent : String) :
    (∀ m : Candidate,
      (m.metadata.entity_type ≠ "" ∧ m.metadata.entity_id ≠ "" →
        dedupeKey m = m.metadata.entity_type ++ ":" ++ m.metadata.entity_id) ∧
      (¬(m.metadata.entity_type ≠ "" ∧ m.metadata.entity_id ≠ "") →
        m.metadata.name ≠ "" → dedupeKey m = "name:" ++ m.metadata.name) ∧
      (¬(m.metadata.entity_type ≠ "" ∧ m.metadata.entity_id ≠ "") →
        m.metadata.name = "" → m.metadata.sectionName ≠ "" →
        dedupeKey m = "section:" ++ m.metadata.sectionName) ∧
      (¬(m.metadata.entity_type ≠ "" ∧ m.metadata.entity_id ≠ "") →
        m.metadata.name = "" → m.metadata.sectionName = "" →
        dedupeKey m = "id:" ++ m.id)) ∧
    (∀ r ∈ rankAndDedupe raw intent, hasText r.cand = true) ∧
    (rankAndDedupe raw intent).Pairwise (fun a b => dedupeKey a.cand ≠ dedupeKey b.cand) ∧
    (∀ r ∈ rankAndDedupe raw intent,
      ((sortBoosted raw intent).filter
        (fun d => dedupeKey d.cand = dedupeKey r.cand && hasText d.cand)).head?
        = some r) := by
  refine ⟨?_, ?_, ?_, ?_⟩
  · intro m
    refine ⟨fun h => ?_, fun h1 h2 => ?_, fun h1 h2 h3 => ?_, fun h1 h2 h3 => ?_⟩ <;>
      simp [dedupeKey, *]
  · intro r hr
    have hhead := (pickLoop_key_first (sortBoosted raw intent) 8 [] r hr).2
    have hmem : r ∈ (sortBoosted raw intent).filter
        (fun d => dedupeKey d.cand = dedupeKey r.cand && hasText d.cand) := by
      cases hfl : (sortBoosted raw intent).filter
          (fun d => dedupeKey d.cand = dedupeKey r.cand && hasText d.cand) with
      | nil => rw [hfl] at hhead; cases hhead
      | cons a t =>
        rw [hfl] at hhead
        have : a = r := by simpa [List.head?] using hhead
        rw [this] at hfl ⊢
        exact List.mem_cons_self _ _
    have := (List.mem_filter.mp hmem).2
    exact (Bool.and_eq_true .. |>.mp this).2
  · exact pickLoop_pairwise_keys (sortBoosted raw intent) 8 []
  · intro r hr
    exact (pickLoop_key_first (sortBoosted raw intent) 8 [] r hr).2

/-- Witness for C2 (amended) at a concrete selected candidate. -/
theorem C2_dedupe_selection_witness :
    hasText (Ranked.mk cWithText 0).cand = true := by
  have hb : rankedBoostedScore cWithText "general" = 0 := by
    simp [rankedBoostedScore, scoreBoost, candType, jsToLower, jsOr, cWithText, mkCand]
  have hsel : selectAll [(⟨cWithText, 0⟩ : Ranked)] [] = [⟨cWithText, 0⟩] := by
    simp [selectAll, hasText, jsTrim, isJsSpaceChar, isJsSpaceCU, dedupeKey,
      cWithText, mkCand]
  have hmem : (⟨cWithText, 0⟩ : Ranked) ∈ rankAndDedupe [cWithText] "general" := by
    rw [rankAndDedupe, pickLoop_eq_take_selectAll, sortBoosted, boostedOf]
    simp only [List.map_cons, List.map_nil, hb, sortDesc, insertDesc, hsel]
    decide
  exact (C2_dedupe_selection [cWithText] "general").2.1 ⟨cWithText, 0⟩ hmem

/-- **C7**: for every request whose `messages` is missing/empty/not an
array, or whose last element is not a user turn with non-empty trimmed
string content, the handler returns HTTP 400 with an error field and issues
no external call. -/
theorem C7_validation_rejects_before_external_calls (body : Option (List ChatMsg))
    (o : Oracles)
    (h : body = none ∨ body = some [] ∨
      ∃ msgs last, body = some msgs ∧ msgs.getLast? = some last ∧
        (last.role ≠ "user" ∨ last.content = none ∨ jsTrim (last.content.getD "") = "")) :
    statusOf (POST body o).1 = 400 ∧
    (∃ e, (POST body o).1 = ApiResponse.badRequest e) ∧
    (POST body o).2 = [] := by
  rcases h with rfl | rfl | ⟨msgs, last, rfl, hlast, hbad⟩
  · exact ⟨rfl, ⟨_, rfl⟩, rfl⟩
  · exact ⟨rfl, ⟨_, rfl⟩, rfl⟩
  · have hne : msgs.isEmpty = false := by
      cases msgs
      · simp at hlast
      · rfl
    simp only [POST, hne, Bool.false_eq_true, if_false, hlast]
    rw [if_pos hbad]
    exact ⟨rfl, ⟨_, rfl⟩, rfl⟩

/-- Witness for C7 at an empty messages array. -/
theorem C7_validation_witness :
    statusOf (POST (some []) emptyOracles).1 = 400 ∧
    (∃ e, (POST (some []) emptyOracles).1 = ApiResponse.badRequest e) ∧
    (POST (some []) emptyOracles).2 = [] :=
  C7_validation_rejects_before_external_calls (some []) emptyOracles (Or.inr (Or.inl rfl))

/-- **C8** (counterexample to indistinguishability): for the same valid
request, zero retrieved candidates and one unusable retrieved candidate
yield responses that agree on `matches`, `rewrittenQuestion` and the absent
`intent` field but differ in the fixed `answer` text — so the caller *can*
tell the two degenerate cases apart from the response alone. -/
theorem C8_degenerate_answers_differ :
    (POST (some msgsHello) oNoMatches).1
      = ApiResponse.ok noMatchAnswer [] "hello" none ∧
    (POST (some msgsHello) oOnlyEmptyText).1
      = ApiResponse.ok noUsableAnswer [] "hello" none ∧
    noMatchAnswer ≠ noUsableAnswer := by
  refine ⟨by decide, ?_, by decide⟩
  decide

/-- **C8** (amended): both degenerate outcomes are normal HTTP 200 responses
with a fixed answer message, empty `matches`, the same `rewrittenQuestion`
and no `intent` field; the two fixed messages differ, so the two cases are
distinguishable by the answer text. -/
theorem C8_degenerate_200 (msgs : List ChatMsg) (o : Oracles)
    (hv : validMessages msgs = true) :
    (o.retrieved.getD [] = [] →
      (POST (some msgs) o).1
        = ApiResponse.ok noMatchAnswer [] (rewriteToStandalone msgs o.rewriteContent) none ∧
      statusOf (POST (some msgs) o).1 = 200) ∧
    (∀ raw : List Candidate, o.retrieved.getD [] = raw → raw ≠ [] →
      rankAndDedupe raw (inferIntent (rewriteToStandalone msgs o.rewriteContent)) = [] →
      (POST (some msgs) o).1
        = ApiResponse.ok noUsableAnswer [] (rewriteToStandalone msgs o.rewriteContent) none ∧
      statusOf (POST (some msgs) o).1 = 200) ∧
    noMatchAnswer ≠ noUsableAnswer := by
  cases hlast : msgs.getLast? with
  | none =>
    rw [validMessages, hlast] at hv
    simp at hv
  | some last =>
    rw [validMessages, hlast] at hv
    have h1 : msgs.isEmpty = false := by
      rcases (Bool.and_eq_true .. |>.mp hv) with ⟨ha, _⟩
      simpa using ha
    have hrest := (Bool.and_eq_true .. |>.mp hv).2
    have hrole : last.role = "user" := by
      rcases (Bool.and_eq_true .. |>.mp hrest) with ⟨hb, _⟩
      rcases (Bool.and_eq_true .. |>.mp hb) with ⟨hc, _⟩
      simpa using hc
    have hcont : ¬ last.content = none := by
      rcases (Bool.and_eq_true .. |>.mp hrest) with ⟨hb, _⟩
      rcases (Bool.and_eq_true .. |>.mp hb) with ⟨_, hd⟩
      simpa using hd
    have htrim : ¬ jsTrim (last.content.getD "") = "" := by
      rcases (Bool.and_eq_true .. |>.mp hrest) with ⟨_, he⟩
      simpa using he
    have hval : ¬ (last.role ≠ "user" ∨ last.content = none
        ∨ jsTrim (last.content.getD "") = "") := by
      push_neg
      exact ⟨hrole, hcont, htrim⟩
    refine ⟨fun hre => ?_, fun raw hre hne hrank => ?_, by decide⟩
    · simp only [POST, h1, Bool.false_eq_true, if_false, hlast]
      rw [if_neg hval]
      simp only [hre, List.isEmpty_nil, if_true]
      exact ⟨trivial, rfl⟩
    · have hraw : raw.isEmpty = false := by
        cases raw
        · exact absurd rfl hne
        · rfl
      simp only [POST, h1, Bool.false_eq_true, if_false, hlast]
      rw [if_neg hval]
      simp only [hre, hraw, Bool.false_eq_true, if_false, hrank, List.isEmpty_nil,
        if_true]
      exact ⟨trivial, rfl⟩

/-- Witness for C8 (amended) at a valid one-turn request with empty
retrieval. -/
theorem C8_degenerate_200_witness :
    (POST (some msgsHello) oNoMatches).1
      = ApiResponse.ok noMatchAnswer [] (rewriteToStandalone msgsHello oNoMatches.rewriteContent) none ∧
    statusOf (POST (some msgsHello) oNoMatches).1 = 200 :=
  (C8_degenerate_200 msgsHello oNoMatches (by decide)).1 rfl

end ProfQuery
